import Mathlib

/-!
Verification of the Canique ULV battery-measurement sketch
(`src/ulv/battery_measurement/battery_measurement.ino`).

The sketch is embedded shallowly:

* Real-valued (`float`) arithmetic of the source is embedded as `ℚ`;
  `lround` is embedded as rounding half away from zero (`lroundQ`).
* The implicit conversion of a `long` to `uint16_t` in
  `uint16_t battVoltage = lround(...)` is embedded as `% 65536` (C modular
  conversion semantics), and the 16-bit signed accumulator `int voltagesADC`
  and 8-bit counter `byte numValidSamples` are embedded with explicit
  two's-complement / modular wrap (`wrap16`, `% 256`) at every update.
* A sampling attempt's outcome (decided by the hardware between entering
  ADC noise-reduction sleep and waking) is an `Attempt`: either `spurious`
  (woken early, `ADSC` still set, the reading is skipped) or `completed`
  with a 10-bit raw ADC count.  The environment supplies one outcome per
  attempt as a function `ℕ → Attempt`.
* Hardware side effects (pin writes, ADC power, delays, serial prints,
  sleeps) are reified as an `Event` trace.
-/

/-- Embeds `const float VOLTAGE_CORRECTION = 1.0;` (line 55, uncalibrated default). -/
def VOLTAGE_CORRECTION : ℚ := 1

/-- Embeds `VOLTAGE_CORRECTION * (989.0/309.0)` — the multiplier compiled when
`ULV_MAX_MEASURE_VOLTAGE_3V3` is defined (line 65). -/
def VOLTAGE_MULTIPLIER_3V3 : ℚ := VOLTAGE_CORRECTION * (989 / 309)

/-- Embeds `VOLTAGE_CORRECTION * (1680.0/1000.0)` — the multiplier compiled when
`ULV_MAX_MEASURE_VOLTAGE_1V8` is defined (line 67). -/
def VOLTAGE_MULTIPLIER_1V8 : ℚ := VOLTAGE_CORRECTION * (1680 / 1000)

/-- The sketch as shipped defines `ULV_MAX_MEASURE_VOLTAGE_1V8` (line 16),
so the active `VOLTAGE_MULTIPLIER` is the 1.8 V-variant one. -/
def VOLTAGE_MULTIPLIER : ℚ := VOLTAGE_MULTIPLIER_1V8

/-- Embeds `const uint16_t delayBeforeBattMeasureUs = 350;` (line 74). -/
def delayBeforeBattMeasureUs : ℕ := 350

/-- C `lround`: round to nearest, halfway cases away from zero. -/
def lroundQ (q : ℚ) : ℤ := if 0 ≤ q then ⌊q + 1 / 2⌋ else -⌊-q + 1 / 2⌋

/-- Lines 198–210 of `getBatteryVoltage` (the spec's `VoltageEstimator`):

    if (numValidSamples == 0) return 0;
    float avgVoltageADC = voltagesADC / (float)numValidSamples;
    uint16_t battVoltage = lround(1000 * ( 1.1 / 1023.0 ) * avgVoltageADC * VOLTAGE_MULTIPLIER);
    return battVoltage;

parameterised by the compiled-in multiplier.  The assignment of the `long`
result of `lround` to `uint16_t` is value mod 2^16. -/
def computeMillivolts (mult : ℚ) (voltagesADC : ℤ) (numValidSamples : ℕ) : ℕ :=
  if numValidSamples = 0 then 0
  else
    let avgVoltageADC : ℚ := (voltagesADC : ℚ) / (numValidSamples : ℚ)
    (lroundQ (1000 * (11 / 10 / 1023) * avgVoltageADC * mult) % 65536).toNat

/-- Outcome of one noise-reduction-sleep conversion attempt, as observed on
wake at line 186: `spurious` when `ADCSRA & _BV(ADSC) ≠ 0` (woken by some
other interrupt before the conversion finished), else `completed` with the
10-bit `ADC` register value (0–1023). -/
inductive Attempt where
  | spurious : Attempt
  | completed (count : Fin 1024) : Attempt
deriving DecidableEq

/-- Whether the attempt yielded a reading (the line-186 test passed). -/
def isValidSample : Attempt → Bool
  | .spurious => false
  | .completed _ => true

/-- The raw ADC count contributed by an attempt (0 when spurious). -/
def sampleCount : Attempt → ℕ
  | .spurious => 0
  | .completed c => c.val

/-- Two's-complement wrap of a 16-bit signed `int` (the AVR `int`). -/
def wrap16 (x : ℤ) : ℤ := (x + 32768) % 65536 - 32768

/-- One iteration of the sampling loop body (lines 175–193), acting on the
accumulator pair `(voltagesADC, numValidSamples)`: a spurious wake hits the
`continue` and changes nothing; a completed conversion does
`voltagesADC += ADC; numValidSamples++;` with the accumulators' native
widths (16-bit signed, 8-bit unsigned). -/
def collectStep (acc : ℤ × ℕ) (a : Attempt) : ℤ × ℕ :=
  match a with
  | .spurious => acc
  | .completed c => (wrap16 (acc.1 + (c.val : ℤ)), (acc.2 + 1) % 256)

/-- The sampling loop `for (byte i=0; i<numSamples; i++) { ... }`
(lines 175–193), the spec's `SampleAcquirer.collect(n)`: starts from
`voltagesADC = 0, numValidSamples = 0` and runs the body once per attempt,
attempt `i` receiving outcome `env i`. -/
def collect (env : ℕ → Attempt) (n : ℕ) : ℤ × ℕ :=
  ((List.range n).map env).foldl collectStep (0, 0)

/-- The loop body with mathematical-integer accumulators (no width wrap),
used to state that the real accumulators never overflow. -/
def collectStepIdeal (acc : ℤ × ℕ) (a : Attempt) : ℤ × ℕ :=
  match a with
  | .spurious => acc
  | .completed c => (acc.1 + (c.val : ℤ), acc.2 + 1)

/-- Variant of `collect` with mathematical-integer accumulators. -/
def collectIdeal (env : ℕ → Attempt) (n : ℕ) : ℤ × ℕ :=
  ((List.range n).map env).foldl collectStepIdeal (0, 0)

/-- Number of valid samples among a list of attempt outcomes. -/
def validCountOf (as : List Attempt) : ℕ :=
  (as.filter fun a => isValidSample a).length

/-- Sum of the raw counts of the valid samples of a list of outcomes. -/
def sumCountsOf (as : List Attempt) : ℤ :=
  ((as.filter fun a => isValidSample a).map fun a => (sampleCount a : ℤ)).sum

/-- Observable hardware side effects of the sketch, in program order. -/
inductive Event where
  | enableHigh : Event
  | enableLow : Event
  | adcOn : Event
  | adcOff : Event
  | refSelect : Event
  | delayUs (us : ℕ) : Event
  | delayMs (ms : ℕ) : Event
  | noiseSleep : Event
  | serialPrint (s : String) : Event
  | deepSleep : Event
deriving DecidableEq

/-- Embeds `getBatteryVoltage(numSamples)` (lines 152–211): raises the enable pin,
waits 350 µs, powers the ADC, runs the sampling loop (one noise-reduction
sleep per attempt), powers the ADC down, clears the enable pin, and
computes the millivolt value from the collected batch.  Returns the event
trace together with the returned `uint16_t`. -/
def getBatteryVoltage (env : ℕ → Attempt) (numSamples : ℕ) : List Event × ℕ :=
  let batch := collect env numSamples
  ([Event.enableHigh, Event.delayUs delayBeforeBattMeasureUs, Event.adcOn]
     ++ List.replicate numSamples Event.noiseSleep
     ++ [Event.adcOff, Event.enableLow],
   computeMillivolts VOLTAGE_MULTIPLIER batch.1 batch.2)

/-- The literal printed by `Serial.print` at line 217. -/
def reportLabel : String := "Canique ULV Board battery voltage: "

/-- Arduino `Serial.println` terminates the line with CR LF. -/
def lineTerminator : String := "\r\n"

/-- One iteration of `loop()` (lines 214–228): measure with 10 samples,
print the report line, deep-sleep for 8 s. -/
def loopIter (env : ℕ → Attempt) : List Event :=
  (getBatteryVoltage env 10).1
    ++ [Event.serialPrint reportLabel,
        Event.serialPrint (Nat.repr (getBatteryVoltage env 10).2),
        Event.serialPrint " mv", Event.serialPrint lineTerminator,
        Event.deepSleep]

/-- Embeds `setupAnalogConverter()` (lines 129–142), as run once from `setup()`:
selects channel/reference in `ADMUX`, turns the ADC off, then waits 10 ms
for the 1.1 V internal reference to build up. -/
def setupTrace : List Event :=
  [Event.refSelect, Event.adcOff, Event.delayMs 10]

/-- The program's trace through `setup()` followed by `k` iterations of
`loop()`, iteration `c` seeing attempt outcomes `env c`. -/
def programTrace (env : ℕ → ℕ → Attempt) (k : ℕ) : List Event :=
  setupTrace ++ ((List.range k).map fun c => loopIter (env c)).flatten

/-- Power state `(adcPowered, enablePinHigh)` transition for one event. -/
def stepPower (s : Bool × Bool) : Event → Bool × Bool
  | Event.enableHigh => (s.1, true)
  | Event.enableLow => (s.1, false)
  | Event.adcOn => (true, s.2)
  | Event.adcOff => (false, s.2)
  | _ => s

/-- Runs over a trace from power state `s` and checks that at every
`deepSleep` event the measurement circuit is fully off (`(false, false)`). -/
def powerOffAtDeepSleep (s : Bool × Bool) : List Event → Bool
  | [] => true
  | Event.deepSleep :: rest =>
      decide (s = (false, false)) && powerOffAtDeepSleep s rest
  | e :: rest => powerOffAtDeepSleep (stepPower s e) rest

/-- Number of millisecond-delay (`delay(...)`) events in a trace. -/
def delayMsCount (es : List Event) : ℕ :=
  (es.filterMap fun e =>
    match e with
    | Event.delayMs m => some m
    | _ => none).length

/-- The text written to the serial port during a trace. -/
def serialOf (es : List Event) : String :=
  String.join (es.filterMap fun e =>
    match e with
    | Event.serialPrint s => some s
    | _ => none)

/-- An environment in which every wake is spurious (used to instantiate
universally quantified statements at a concrete input). -/
def envAllSpurious : ℕ → Attempt := fun _ => Attempt.spurious

/-- An environment in which every conversion completes with the maximal
raw count 1023. -/
def envAllMax : ℕ → Attempt := fun _ => Attempt.completed ⟨1023, by norm_num⟩

/-- A per-cycle environment in which every conversion completes with the
maximal raw count 1023. -/
def envAllMax2 : ℕ → ℕ → Attempt := fun _ _ => Attempt.completed ⟨1023, by norm_num⟩

/-! Arithmetic facts about `lroundQ` and `computeMillivolts` -/

theorem lroundQ_of_nonneg {q : ℚ} (h : 0 ≤ q) : lroundQ q = ⌊q + 1 / 2⌋ :=
  if_pos h

theorem lroundQ_nonneg {q : ℚ} (h : 0 ≤ q) : 0 ≤ lroundQ q := by
  rw [lroundQ_of_nonneg h]
  exact Int.floor_nonneg.mpr (by linarith)

theorem lroundQ_le {q : ℚ} {B : ℤ} (h0 : 0 ≤ q) (h : q ≤ (B : ℚ)) :
    lroundQ q ≤ B := by
  rw [lroundQ_of_nonneg h0]
  rw [Int.floor_le_iff]
  linarith

theorem lroundQ_mono {q r : ℚ} (h0 : 0 ≤ q) (h : q ≤ r) :
    lroundQ q ≤ lroundQ r := by
  rw [lroundQ_of_nonneg h0, lroundQ_of_nonneg (le_trans h0 h)]
  exact Int.floor_mono (by linarith)

/-- Both compiled-in multipliers lie in `[0, 4]`. -/
theorem multiplier_mem_range {mult : ℚ}
    (hm : mult = VOLTAGE_MULTIPLIER ∨ mult = VOLTAGE_MULTIPLIER_3V3) :
    0 ≤ mult ∧ mult ≤ 4 := by
  rcases hm with h | h <;> subst h <;>
    norm_num [VOLTAGE_MULTIPLIER, VOLTAGE_MULTIPLIER_1V8, VOLTAGE_MULTIPLIER_3V3,
      VOLTAGE_CORRECTION]

/-- Core behaviour of the millivolt computation on an in-range batch, for
any multiplier in `[0, 4]`: the `uint16_t` conversion is the identity (the
rounded value lies in `[0, 4400] ⊆ [0, 65535]`), so the returned value is
exactly the rounded ideal formula. -/
theorem computeMillivolts_eq_lround {mult : ℚ} (sum : ℤ) (k : ℕ)
    (hm0 : 0 ≤ mult) (hm4 : mult ≤ 4) (hk : 0 < k)
    (h0 : 0 ≤ sum) (hb : sum ≤ 1023 * (k : ℤ)) :
    (computeMillivolts mult sum k : ℤ)
        = lroundQ (1000 * ((sum : ℚ) / (k : ℚ)) * (11 / 10 / 1023) * mult)
      ∧ computeMillivolts mult sum k ≤ 65535 := by
  have hkQ : (0 : ℚ) < (k : ℚ) := by exact_mod_cast hk
  have havg0 : 0 ≤ (sum : ℚ) / (k : ℚ) := by positivity
  have havg : (sum : ℚ) / (k : ℚ) ≤ 1023 := by
    rw [div_le_iff₀ hkQ]
    exact_mod_cast hb
  have hprod : (sum : ℚ) / (k : ℚ) * mult ≤ 1023 * 4 :=
    mul_le_mul havg hm4 hm0 (by norm_num)
  have hprod0 : 0 ≤ (sum : ℚ) / (k : ℚ) * mult := mul_nonneg havg0 hm0
  set q : ℚ := 1000 * (11 / 10 / 1023) * ((sum : ℚ) / (k : ℚ)) * mult with hq
  have hq0 : 0 ≤ q := by
    rw [hq, mul_assoc]
    exact mul_nonneg (by norm_num) hprod0
  have hq4400 : q ≤ 4400 := by
    rw [hq, mul_assoc]
    calc 1000 * (11 / 10 / 1023) * ((sum : ℚ) / (k : ℚ) * mult)
        ≤ 1000 * (11 / 10 / 1023) * (1023 * 4) := by
          exact mul_le_mul_of_nonneg_left hprod (by norm_num)
      _ = 4400 := by norm_num
  have hl0 : 0 ≤ lroundQ q := lroundQ_nonneg hq0
  have hl : lroundQ q ≤ 4400 := lroundQ_le hq0 (by exact_mod_cast hq4400)
  have hmod : lroundQ q % 65536 = lroundQ q :=
    Int.emod_eq_of_lt hl0 (by omega)
  have hargs : 1000 * ((sum : ℚ) / (k : ℚ)) * (11 / 10 / 1023) * mult = q := by
    rw [hq]; ring
  have hcm : computeMillivolts mult sum k = (lroundQ q).toNat := by
    simp only [computeMillivolts, if_neg (Nat.pos_iff_ne_zero.mp hk)]
    rw [← hq, hmod]
  constructor
  · rw [hcm, hargs, Int.toNat_of_nonneg hl0]
  · rw [hcm]
    exact Int.toNat_le.mpr (by omega)

/-! Claims about the voltage computation -/

/-- C1: for every batch with `validCount > 0` (and `sumCounts` in the range
reachable from 10-bit samples), the millivolt computation returns
`lround(1000 * (sumCounts / validCount) * (1.1 / 1023) * voltageMultiplier)`
with real-valued division, and the result fits the 16-bit unsigned range,
so the `uint16_t` conversion neither wraps nor truncates.  Stated for the
active multiplier and for the alternative 3.3 V-variant multiplier. -/
theorem millivolts_formula_bounded (mult : ℚ) (sumCounts : ℤ) (validCount : ℕ)
    (hm : mult = VOLTAGE_MULTIPLIER ∨ mult = VOLTAGE_MULTIPLIER_3V3)
    (hk : 0 < validCount) (h0 : 0 ≤ sumCounts)
    (hb : sumCounts ≤ 1023 * (validCount : ℤ)) :
    (computeMillivolts mult sumCounts validCount : ℤ)
        = lroundQ (1000 * ((sumCounts : ℚ) / (validCount : ℚ)) * (11 / 10 / 1023) * mult)
      ∧ computeMillivolts mult sumCounts validCount ≤ 65535 := by
  obtain ⟨hm0, hm4⟩ := multiplier_mem_range hm
  exact computeMillivolts_eq_lround sumCounts validCount hm0 hm4 hk h0 hb

/-- Witness for C1 at `sumCounts = 372`, `validCount = 1` with the active
multiplier. -/
theorem millivolts_formula_bounded_witness :
    (computeMillivolts VOLTAGE_MULTIPLIER 372 1 : ℤ)
        = lroundQ (1000 * (((372 : ℤ) : ℚ) / ((1 : ℕ) : ℚ)) * (11 / 10 / 1023) * VOLTAGE_MULTIPLIER)
      ∧ computeMillivolts VOLTAGE_MULTIPLIER 372 1 ≤ 65535 :=
  millivolts_formula_bounded VOLTAGE_MULTIPLIER 372 1 (Or.inl rfl)
    (by norm_num) (by norm_num) (by norm_num)

/-- C2: with `validCount == 0` the computation returns the sentinel `0` for
every `sumCounts` and every multiplier; the division by `validCount` sits
in the not-taken branch, so no division by zero is ever evaluated. -/
theorem millivolts_sentinel_zero (mult : ℚ) (sumCounts : ℤ) :
    computeMillivolts mult sumCounts 0 = 0 := rfl

/-- C6: for a fixed `validCount > 0` the output is weakly monotone in
`sumCounts` (hence in the raw-count average), for averages in `[0, 1023]`,
for the active multiplier and the alternative 3.3 V-variant one. -/
theorem millivolts_monotone (mult : ℚ) (s1 s2 : ℤ) (validCount : ℕ)
    (hm : mult = VOLTAGE_MULTIPLIER ∨ mult = VOLTAGE_MULTIPLIER_3V3)
    (hk : 0 < validCount) (h0 : 0 ≤ s1) (h12 : s1 ≤ s2)
    (hb : s2 ≤ 1023 * (validCount : ℤ)) :
    computeMillivolts mult s1 validCount ≤ computeMillivolts mult s2 validCount := by
  obtain ⟨hm0, hm4⟩ := multiplier_mem_range hm
  have h1 := computeMillivolts_eq_lround s1 validCount hm0 hm4 hk h0 (le_trans h12 hb)
  have h2 := computeMillivolts_eq_lround s2 validCount hm0 hm4 hk (le_trans h0 h12) hb
  have hkQ : (0 : ℚ) < (validCount : ℚ) := by exact_mod_cast hk
  have havg : (s1 : ℚ) / (validCount : ℚ) ≤ (s2 : ℚ) / (validCount : ℚ) := by
    gcongr

  have havg0 : 0 ≤ (s1 : ℚ) / (validCount : ℚ) := by positivity
  have hq12 : 1000 * ((s1 : ℚ) / (validCount : ℚ)) * (11 / 10 / 1023) * mult
      ≤ 1000 * ((s2 : ℚ) / (validCount : ℚ)) * (11 / 10 / 1023) * mult := by
    have hc : (0 : ℚ) ≤ 1000 * (11 / 10 / 1023) * mult := by
      exact mul_nonneg (by norm_num) hm0
    calc 1000 * ((s1 : ℚ) / (validCount : ℚ)) * (11 / 10 / 1023) * mult
        = 1000 * (11 / 10 / 1023) * mult * ((s1 : ℚ) / (validCount : ℚ)) := by ring
      _ ≤ 1000 * (11 / 10 / 1023) * mult * ((s2 : ℚ) / (validCount : ℚ)) :=
          mul_le_mul_of_nonneg_left havg hc
      _ = 1000 * ((s2 : ℚ) / (validCount : ℚ)) * (11 / 10 / 1023) * mult := by ring
  have hq0 : 0 ≤ 1000 * ((s1 : ℚ) / (validCount : ℚ)) * (11 / 10 / 1023) * mult := by
    have : (0 : ℚ) ≤ 1000 * (11 / 10 / 1023) * mult := mul_nonneg (by norm_num) hm0
    calc (0 : ℚ) ≤ 1000 * (11 / 10 / 1023) * mult * ((s1 : ℚ) / (validCount : ℚ)) :=
          mul_nonneg this havg0
      _ = 1000 * ((s1 : ℚ) / (validCount : ℚ)) * (11 / 10 / 1023) * mult := by ring
  have : (computeMillivolts mult s1 validCount : ℤ) ≤ (computeMillivolts mult s2 validCount : ℤ) := by
    rw [h1.1, h2.1]
    exact lroundQ_mono hq0 hq12
  exact_mod_cast this

/-- Witness for C6: `s1 = 100 ≤ s2 = 372` with `validCount = 1`. -/
theorem millivolts_monotone_witness :
    computeMillivolts VOLTAGE_MULTIPLIER 100 1 ≤ computeMillivolts VOLTAGE_MULTIPLIER 372 1 :=
  millivolts_monotone VOLTAGE_MULTIPLIER 100 372 1 (Or.inl rfl)
    (by norm_num) (by norm_num) (by norm_num) (by norm_num)

/-- C7: with the 3.3 V-variant multiplier `989/309` and correction factor
`1.0`, an average raw count of exactly 372 (here `sumCounts = 372`,
`validCount = 1`) yields exactly 1280 mV. -/
theorem scenarioA_3v3_gives_1280mv :
    computeMillivolts VOLTAGE_MULTIPLIER_3V3 372 1 = 1280 := by
  norm_num [computeMillivolts, lroundQ, VOLTAGE_MULTIPLIER_3V3, VOLTAGE_CORRECTION]
  decide

/-! Facts about the sampling loop -/

theorem validCountOf_spurious (tl : List Attempt) :
    validCountOf (Attempt.spurious :: tl) = validCountOf tl := by
  simp [validCountOf, List.filter_cons, isValidSample]

theorem validCountOf_completed (c : Fin 1024) (tl : List Attempt) :
    validCountOf (Attempt.completed c :: tl) = validCountOf tl + 1 := by
  simp [validCountOf, List.filter_cons, isValidSample]

theorem sumCountsOf_spurious (tl : List Attempt) :
    sumCountsOf (Attempt.spurious :: tl) = sumCountsOf tl := by
  simp [sumCountsOf, List.filter_cons, isValidSample]

theorem sumCountsOf_completed (c : Fin 1024) (tl : List Attempt) :
    sumCountsOf (Attempt.completed c :: tl) = (c.val : ℤ) + sumCountsOf tl := by
  simp [sumCountsOf, List.filter_cons, isValidSample, sampleCount]

theorem validCountOf_le_length (as : List Attempt) : validCountOf as ≤ as.length :=
  List.length_filter_le _ as

theorem sumCountsOf_nonneg (as : List Attempt) : 0 ≤ sumCountsOf as := by
  induction as with
  | nil => simp [sumCountsOf]
  | cons a tl ih =>
    cases a with
    | spurious => rw [sumCountsOf_spurious]; exact ih
    | completed c => rw [sumCountsOf_completed]; positivity

theorem sumCountsOf_le (as : List Attempt) :
    sumCountsOf as ≤ 1023 * (validCountOf as : ℤ) := by
  induction as with
  | nil => simp [sumCountsOf, validCountOf]
  | cons a tl ih =>
    cases a with
    | spurious => rw [sumCountsOf_spurious, validCountOf_spurious]; exact ih
    | completed c =>
      rw [sumCountsOf_completed, validCountOf_completed]
      have hc : (c.val : ℤ) ≤ 1023 := by exact_mod_cast Nat.lt_succ_iff.mp c.isLt
      push_cast
      linarith

/-- Spurious attempts are no-ops: folding the loop body over all attempts
equals folding it over the valid ones only. -/
theorem foldl_collectStep_filter (as : List Attempt) (acc : ℤ × ℕ) :
    as.foldl collectStep acc
      = (as.filter fun a => isValidSample a).foldl collectStep acc := by
  induction as generalizing acc with
  | nil => rfl
  | cons a tl ih =>
    cases a with
    | spurious =>
      simp only [List.foldl_cons, List.filter_cons, isValidSample, Bool.false_eq_true,
        if_false, collectStep]
      exact ih acc
    | completed c =>
      simp only [List.foldl_cons, List.filter_cons, isValidSample, if_true]
      exact ih _

/-- The 8-bit `numValidSamples` counter counts the valid attempts exactly,
as long as it cannot reach 256. -/
theorem foldl_collectStep_count (as : List Attempt) (s : ℤ) (v : ℕ)
    (hv : v + validCountOf as ≤ 255) :
    (as.foldl collectStep (s, v)).2 = v + validCountOf as := by
  induction as generalizing s v with
  | nil => simp [validCountOf]
  | cons a tl ih =>
    cases a with
    | spurious =>
      rw [validCountOf_spurious] at hv ⊢
      simpa [collectStep] using ih s v hv
    | completed c =>
      rw [validCountOf_completed] at hv ⊢
      have hmod : (v + 1) % 256 = v + 1 := Nat.mod_eq_of_lt (by omega)
      have := ih (wrap16 (s + (c.val : ℤ))) (v + 1) (by omega)
      simp only [List.foldl_cons, collectStep, hmod]
      rw [this]
      omega

/-- The ideal (unbounded) fold just adds the valid counts and their sum. -/
theorem foldl_collectStepIdeal (as : List Attempt) (s : ℤ) (v : ℕ) :
    as.foldl collectStepIdeal (s, v) = (s + sumCountsOf as, v + validCountOf as) := by
  induction as generalizing s v with
  | nil => simp [sumCountsOf, validCountOf]
  | cons a tl ih =>
    cases a with
    | spurious =>
      rw [sumCountsOf_spurious, validCountOf_spurious]
      simpa [collectStepIdeal] using ih s v
    | completed c =>
      rw [sumCountsOf_completed, validCountOf_completed]
      simp only [List.foldl_cons, collectStepIdeal]
      rw [ih]
      refine Prod.ext ?_ ?_
      · ring
      · omega

/-- As long as the true running sum stays within the signed 16-bit range
and the counter below 256, the wrapped fold agrees with the ideal fold. -/
theorem foldl_collectStep_eq_ideal (as : List Attempt) (s : ℤ) (v : ℕ)
    (hs0 : 0 ≤ s) (hs : s + 1023 * (validCountOf as : ℤ) ≤ 32767)
    (hv : v + validCountOf as ≤ 255) :
    as.foldl collectStep (s, v) = as.foldl collectStepIdeal (s, v) := by
  induction as generalizing s v with
  | nil => rfl
  | cons a tl ih =>
    cases a with
    | spurious =>
      rw [validCountOf_spurious] at hs hv
      simp only [List.foldl_cons, collectStep, collectStepIdeal]
      exact ih s v hs0 hs hv
    | completed c =>
      rw [validCountOf_completed] at hs hv
      push_cast at hs
      have hc0 : (0 : ℤ) ≤ (c.val : ℤ) := by positivity
      have hc : (c.val : ℤ) ≤ 1023 := by exact_mod_cast Nat.lt_succ_iff.mp c.isLt
      have hvc0 : (0 : ℤ) ≤ (validCountOf tl : ℤ) := by positivity
      have hwrap : wrap16 (s + (c.val : ℤ)) = s + (c.val : ℤ) := by
        unfold wrap16
        omega
      have hmod : (v + 1) % 256 = v + 1 := Nat.mod_eq_of_lt (by omega)
      simp only [List.foldl_cons, collectStep, collectStepIdeal, hwrap, hmod]
      exact ih (s + (c.val : ℤ)) (v + 1) (by omega) (by omega) (by omega)

/-! Claims about the sampling loop -/

/-- C3: `collect(n)` performs exactly `n` conversion attempts (one
noise-reduction sleep each, visible as `n` `noiseSleep` events in the
trace) and then returns; `validCount` is exactly the number of attempts
whose conversion completed, hence `0 ≤ validCount ≤ n`; spurious attempts
are discarded without retry (folding the loop body over all `n` outcomes
equals folding it over just the completed ones), so only completed
attempts add their raw count and increment `validCount`.  The hypothesis
`n ≤ 255` reflects `numSamples` being a `byte`. -/
theorem collect_attempts (env : ℕ → Attempt) (n : ℕ) (hn : n ≤ 255) :
    (collect env n).2 = validCountOf ((List.range n).map env)
      ∧ (collect env n).2 ≤ n
      ∧ collect env n
          = (((List.range n).map env).filter fun a => isValidSample a).foldl collectStep (0, 0)
      ∧ (getBatteryVoltage env n).1.count Event.noiseSleep = n := by
  have hlen : validCountOf ((List.range n).map env) ≤ n := by
    have := validCountOf_le_length ((List.range n).map env)
    simpa using this
  have h1 : (collect env n).2 = validCountOf ((List.range n).map env) := by
    have := foldl_collectStep_count ((List.range n).map env) 0 0 (by omega)
    simpa [collect] using this
  refine ⟨h1, ?_, ?_, ?_⟩
  · omega
  · exact foldl_collectStep_filter ((List.range n).map env) (0, 0)
  · simp [getBatteryVoltage, List.count_append, List.count_replicate, List.count_cons,
      List.count_nil]

/-- Witness for C3 at `n = 10` with every conversion completing at 1023. -/
theorem collect_attempts_witness :
    (collect envAllMax 10).2 = validCountOf ((List.range 10).map envAllMax)
      ∧ (collect envAllMax 10).2 ≤ 10
      ∧ collect envAllMax 10
          = (((List.range 10).map envAllMax).filter fun a => isValidSample a).foldl collectStep (0, 0)
      ∧ (getBatteryVoltage envAllMax 10).1.count Event.noiseSleep = 10 :=
  collect_attempts envAllMax 10 (by norm_num)

/-- C9: for `numSamples ≤ 32` and any raw counts in `[0, 1023]`, the
16-bit accumulators behave exactly like unbounded integers, and the final
sum lies in `[0, 32736] ⊆ [-32768, 32767]`: no overflow in the
accumulation (and hence none in the average, which is computed from these
values).  The deployed call uses `numSamples = 10`. -/
theorem accumulator_no_overflow (env : ℕ → Attempt) (n : ℕ) (hn : n ≤ 32) :
    collect env n = collectIdeal env n
      ∧ 0 ≤ (collect env n).1
      ∧ (collect env n).1 ≤ 32736
      ∧ (collect env n).1 = sumCountsOf ((List.range n).map env) := by
  set as := (List.range n).map env with has
  have hlen : validCountOf as ≤ n := by
    have := validCountOf_le_length as
    simpa [has] using this
  have heq : collect env n = collectIdeal env n := by
    rw [collect, collectIdeal, ← has]
    refine foldl_collectStep_eq_ideal as 0 0 le_rfl ?_ (by omega)
    have : (validCountOf as : ℤ) ≤ 32 := by exact_mod_cast le_trans hlen hn
    linarith
  have hideal : collectIdeal env n = (sumCountsOf as, validCountOf as) := by
    rw [collectIdeal, ← has]
    simpa using foldl_collectStepIdeal as 0 0
  refine ⟨heq, ?_, ?_, ?_⟩
  · rw [heq, hideal]
    exact sumCountsOf_nonneg as
  · rw [heq, hideal]
    have h1 : sumCountsOf as ≤ 1023 * (validCountOf as : ℤ) := sumCountsOf_le as
    have h2 : (validCountOf as : ℤ) ≤ 32 := by exact_mod_cast le_trans hlen hn
    linarith
  · rw [heq, hideal]

/-- Witness for C9 at the deployed sample count `n = 10` with every
conversion completing at the maximal count 1023. -/
theorem accumulator_no_overflow_witness :
    collect envAllMax 10 = collectIdeal envAllMax 10
      ∧ 0 ≤ (collect envAllMax 10).1
      ∧ (collect envAllMax 10).1 ≤ 32736
      ∧ (collect envAllMax 10).1 = sumCountsOf ((List.range 10).map envAllMax) :=
  accumulator_no_overflow envAllMax 10 (by norm_num)

/-! Facts about the event traces -/

theorem getBatteryVoltage_trace (env : ℕ → Attempt) (n : ℕ) :
    (getBatteryVoltage env n).1
      = [Event.enableHigh, Event.delayUs 350, Event.adcOn]
          ++ List.replicate n Event.noiseSleep
          ++ [Event.adcOff, Event.enableLow] := rfl

/-- Splitting the deep-sleep safety check over an append. -/
theorem powerOffAtDeepSleep_append (xs ys : List Event) (s : Bool × Bool) :
    powerOffAtDeepSleep s (xs ++ ys)
      = (powerOffAtDeepSleep s xs && powerOffAtDeepSleep (xs.foldl stepPower s) ys) := by
  induction xs generalizing s with
  | nil => simp [powerOffAtDeepSleep]
  | cons e tl ih =>
    cases e <;>
      simp [powerOffAtDeepSleep, stepPower, ih, Bool.and_assoc]

/-- Within one `loop()` iteration, whatever the starting power state, the
ADC and the enable pin are both off at the moment `deepSleep` is reached
(the iteration ends `... adcOff, enableLow, <prints>, deepSleep`). -/
theorem powerOffAtDeepSleep_loopIter (env : ℕ → Attempt) (s : Bool × Bool) :
    powerOffAtDeepSleep s (loopIter env) = true := rfl

/-- A `loop()` iteration leaves the measurement circuit fully off. -/
theorem stepPower_loopIter (env : ℕ → Attempt) (s : Bool × Bool) :
    (loopIter env).foldl stepPower s = (false, false) := rfl

/-- The deep-sleep safety check holds over any number of `loop()` cycles,
from any starting power state. -/
theorem powerOffAtDeepSleep_cycles (env : ℕ → ℕ → Attempt) (k : ℕ) (s : Bool × Bool) :
    powerOffAtDeepSleep s (((List.range k).map fun c => loopIter (env c)).flatten) = true := by
  induction k generalizing s with
  | zero => rfl
  | succ k ih =>
    rw [List.range_succ, List.map_append, List.flatten_append]
    rw [powerOffAtDeepSleep_append]
    simp [ih, powerOffAtDeepSleep_append, powerOffAtDeepSleep_loopIter]

/-! Claims about power sequencing and the outer loop -/

/-- C4: starting from the powered-down state `setup()` leaves behind, in
every cycle of `loop()` the ADC is powered off and the enable pin cleared
before the `deepSleep` event; the program never reaches a `deepSleep`
event while either is on. -/
theorem deepSleep_circuit_off (env : ℕ → ℕ → Attempt) (k : ℕ) :
    powerOffAtDeepSleep (false, false) (programTrace env k) = true := by
  rw [programTrace, powerOffAtDeepSleep_append]
  simp [powerOffAtDeepSleep_cycles]
  rfl

/-- C10: with `numSamples == 0` the measurement performs no conversion
attempt (no `noiseSleep` event), still raises and then clears the enable
pin and powers the ADC on and off, leaves the circuit fully off on return,
and returns the sentinel 0 — indistinguishable from the all-samples-invalid
case. -/
theorem zero_samples_sentinel (env : ℕ → Attempt) :
    getBatteryVoltage env 0
        = ([Event.enableHigh, Event.delayUs 350, Event.adcOn,
            Event.adcOff, Event.enableLow], 0)
      ∧ Event.noiseSleep ∉ (getBatteryVoltage env 0).1
      ∧ (getBatteryVoltage env 0).1.foldl stepPower (false, false) = (false, false) := by
  refine ⟨rfl, ?_, rfl⟩
  rw [getBatteryVoltage_trace]
  decide

/-- C5 (counterexample to the claim as stated): a measurement cycle takes
its samples (there is a `noiseSleep` conversion attempt in its trace)
without any millisecond warm-up delay: the cycle trace contains no
`delay(...)` (millisecond) event at all.  The 10 ms warm-up runs only once,
in `setup()`. -/
theorem warmup_missing_from_cycle_cex :
    Event.noiseSleep ∈ loopIter envAllSpurious
      ∧ delayMsCount (loopIter envAllSpurious) = 0 := by
  exact ⟨by decide, rfl⟩

/-- C5 (amended): the multi-millisecond warm-up delay for the internal
reference (10 ms) is executed exactly once, in `setup()`, before any
measurement cycle; each cycle performs only the 350 µs settle delay after
raising the enable signal and before the first conversion attempt. -/
theorem warmup_once_settle_each_cycle (env : ℕ → ℕ → Attempt) (k : ℕ) :
    programTrace env k
        = setupTrace ++ ((List.range k).map fun c => loopIter (env c)).flatten
      ∧ Event.delayMs 10 ∈ setupTrace
      ∧ ∀ c, delayMsCount (loopIter (env c)) = 0
          ∧ ∃ rest, loopIter (env c)
              = Event.enableHigh :: Event.delayUs 350 :: Event.adcOn :: rest := by
  exact ⟨rfl, by decide, fun c => ⟨rfl, ⟨_, rfl⟩⟩⟩

/-! The report line -/

theorem digitChar_ne_newline {m : ℕ} (h : m < 10) : Nat.digitChar m ≠ '\n' := by
  interval_cases m <;> decide

theorem toDigitsCore_ne_newline (fuel : ℕ) : ∀ (n : ℕ) (acc : List Char),
    (∀ c ∈ acc, c ≠ '\n') → ∀ c ∈ Nat.toDigitsCore 10 fuel n acc, c ≠ '\n' := by
  induction fuel with
  | zero =>
    intro n acc h c hc
    rw [Nat.toDigitsCore] at hc
    exact h c hc
  | succ fuel ih =>
    intro n acc h c hc
    rw [Nat.toDigitsCore] at hc
    have hacc : ∀ c ∈ Nat.digitChar (n % 10) :: acc, c ≠ '\n' := by
      intro c' hc'
      rcases List.mem_cons.mp hc' with h' | h'
      · subst h'; exact digitChar_ne_newline (Nat.mod_lt _ (by norm_num))
      · exact h c' h'
    split at hc
    · exact hacc c hc
    · exact ih _ _ hacc c hc

/-- The decimal representation of a number contains no newline, so the
printed value cannot break the report line. -/
theorem repr_count_newline (n : ℕ) : (Nat.repr n).data.count '\n' = 0 := by
  rw [List.count_eq_zero]
  intro h
  have hd : (Nat.repr n).data = Nat.toDigits 10 n := rfl
  rw [hd, Nat.toDigits] at h
  exact toDigitsCore_ne_newline _ _ _ (by simp) '\n' h rfl

theorem serialOf_loopIter (env : ℕ → Attempt) :
    serialOf (loopIter env)
      = String.join [reportLabel, Nat.repr (getBatteryVoltage env 10).2,
          " mv", lineTerminator] := rfl

/-- C8: each `loop()` cycle writes to the serial port exactly the line
`Canique ULV Board battery voltage: <value> mv` followed by the line
terminator, where `<value>` is that cycle's millivolt reading (the
sentinel 0 included, as the reading is printed unconditionally); the
output contains exactly one line terminator. -/
theorem report_line_format (env : ℕ → Attempt) :
    serialOf (loopIter env)
        = reportLabel ++ Nat.repr (getBatteryVoltage env 10).2
            ++ " mv" ++ lineTerminator
      ∧ (serialOf (loopIter env)).data.count '\n' = 1 := by
  have h := serialOf_loopIter env
  constructor
  · rw [h]
    simp [String.join]
  · rw [h]
    have hdata : (String.join [reportLabel, Nat.repr (getBatteryVoltage env 10).2,
        " mv", lineTerminator]).data
          = reportLabel.data ++ ((Nat.repr (getBatteryVoltage env 10).2).data
              ++ (" mv".data ++ lineTerminator.data)) := by
      simp [String.join]
    rw [hdata]
    simp [List.count_append, repr_count_newline]
    decide
